import Mathlib

/-
A functional model of src/git.go: a thin binding over the git tool that
provides a content-addressed object store, a ref registry ordered by
filesystem modification time, and remote synchronization.  Each Go
function shells out to git; here the git side is modelled as a pure
transition on an explicit repository state, and the Go side (argument
construction, output parsing, prefix filtering, error wrapping) is
translated line by line.
-/

/-! ### Byte-string utilities (Go standard library functions used by git.go) -/

/-- The whitespace predicate of bytes.TrimSpace / unicode.IsSpace,
restricted to the ASCII space characters. -/
def isGoSpace (c : Char) : Bool :=
  c == ' ' || c == '\t' || c == '\n' || c == '\x0B' || c == '\x0C' || c == '\r'

/-- bytes.TrimSpace / strings.TrimSpace on a character list: drop
whitespace from both ends. -/
def trimSpaceChars (s : List Char) : List Char :=
  ((s.dropWhile isGoSpace).reverse.dropWhile isGoSpace).reverse

/-- strings.TrimSpace (also bytes.TrimSpace, with byte strings modelled
as Lean strings). -/
def trimSpaceStr (s : String) : String :=
  String.mk (trimSpaceChars s.data)

/-- strings.HasPrefix(s, pre): pre is a prefix of s. -/
def hasPrefixGo (s pre : String) : Bool :=
  pre.data.isPrefixOf s.data

/-- Substring test: needle occurs contiguously inside the character list. -/
def infixChars (needle : List Char) : List Char → Bool
  | [] => needle.isEmpty
  | c :: rest => needle.isPrefixOf (c :: rest) || infixChars needle rest

/-- Substring test on strings, used to state that an error message
carries a captured process output. -/
def containsStr (hay needle : String) : Bool :=
  infixChars needle.data hay.data

theorem dropWhile_eq_self_of_head (p : Char → Bool) (l : List Char)
    (h : ∀ c ∈ l.head?, p c = false) : l.dropWhile p = l := by
  cases l with
  | nil => rfl
  | cons c rest =>
    have hc : p c = false := h c rfl
    simp [List.dropWhile_cons, hc]

theorem trimSpaceChars_append_newline (l : List Char)
    (h : ∀ c ∈ l, isGoSpace c = false) :
    trimSpaceChars (l ++ ['\n']) = l := by
  unfold trimSpaceChars
  have hfront : (l ++ ['\n']).dropWhile isGoSpace = l ++ ['\n'] ∨ l = [] := by
    cases l with
    | nil => right; rfl
    | cons c rest =>
      left
      apply dropWhile_eq_self_of_head
      intro x hx
      simp at hx
      subst hx
      exact h c (by simp)
  rcases hfront with hfront | hnil
  · rw [hfront]
    rw [List.reverse_append]
    simp only [List.reverse_cons, List.reverse_nil, List.nil_append,
      List.singleton_append]
    rw [List.dropWhile_cons]
    have : isGoSpace '\n' = true := by decide
    rw [this]
    simp only [if_true]
    rw [dropWhile_eq_self_of_head]
    · simp
    · intro c hc
      apply h
      have := List.mem_of_mem_head? hc
      exact (List.mem_reverse).1 this
  · subst hnil
    decide

/-! ### The content hash

git hash-object computes a cryptographic digest of the payload; the model
idealizes it as an injective, whitespace-free digest of the payload
characters (each character encoded in unary, terminated by a marker). -/

def encChar (c : Char) : List Char :=
  List.replicate c.toNat 'a' ++ ['b']

def encChars : List Char → List Char
  | [] => []
  | c :: rest => encChar c ++ encChars rest

/-- Modelled from the spec: the content hash returned by the backing
object store (git hash-object); idealized as an injective digest. -/
def gitHash (payload : String) : String :=
  String.mk (encChars payload.data)

/-- Unary decoder, inverse to encChars: count up on the marker 'a',
emit a character on anything else. -/
def decAux (n : Nat) : List Char → List Char
  | [] => []
  | c :: rest => if c == 'a' then decAux (n + 1) rest else Char.ofNat n :: decAux 0 rest

theorem decAux_replicate (m n : Nat) (rest : List Char) :
    decAux n (List.replicate m 'a' ++ 'b' :: rest) =
      Char.ofNat (n + m) :: decAux 0 rest := by
  induction m generalizing n with
  | zero =>
    simp only [List.replicate, List.nil_append, decAux]
    rw [if_neg (by decide), Nat.add_zero]
  | succ k ih =>
    rw [List.replicate_succ, List.cons_append]
    show (if ('a' == 'a') = true then decAux (n + 1) (List.replicate k 'a' ++ 'b' :: rest)
      else Char.ofNat n :: decAux 0 (List.replicate k 'a' ++ 'b' :: rest)) = _
    rw [if_pos (by decide), ih]
    congr 2
    omega

theorem decAux_encChars (l : List Char) :
    decAux 0 (encChars l) = l := by
  induction l with
  | nil => rfl
  | cons c rest ih =>
    show decAux 0 (encChar c ++ encChars rest) = c :: rest
    unfold encChar
    rw [List.append_assoc, List.singleton_append, decAux_replicate]
    rw [ih, Nat.zero_add, Char.ofNat_toNat]

theorem encChars_inj {l₁ l₂ : List Char} (h : encChars l₁ = encChars l₂) :
    l₁ = l₂ := by
  have := congrArg (decAux 0) h
  rwa [decAux_encChars, decAux_encChars] at this

theorem string_data_inj {s t : String} (h : s.data = t.data) : s = t := by
  cases s
  cases t
  cases h
  rfl

theorem char_toNat_inj {c d : Char} (h : c.toNat = d.toNat) : c = d := by
  apply Char.eq_of_val_eq
  have h2 : c.val.toNat = d.val.toNat := h
  exact UInt32.toNat.inj h2

/-- Executable lexicographic comparison of character lists by character
code: the byte order in which git show-ref emits ref names. -/
def leChars : List Char → List Char → Bool
  | [], _ => true
  | _ :: _, [] => false
  | a :: as, b :: bs =>
    if a.toNat < b.toNat then true
    else if b.toNat < a.toNat then false
    else leChars as bs

/-- Lexicographic byte order on strings. -/
def leStr (a b : String) : Bool := leChars a.data b.data

theorem leChars_total (a b : List Char) :
    leChars a b = true ∨ leChars b a = true := by
  induction a generalizing b with
  | nil => left; rfl
  | cons x xs ih =>
    cases b with
    | nil => right; rfl
    | cons y ys =>
      by_cases h1 : x.toNat < y.toNat
      · left; simp [leChars, h1]
      · by_cases h2 : y.toNat < x.toNat
        · right; simp [leChars, h2]
        · rcases ih ys with h | h
          · left; simp [leChars, h1, h2, h]
          · right; simp [leChars, h1, h2, h]

theorem leChars_trans {a b c : List Char} (h1 : leChars a b = true)
    (h2 : leChars b c = true) : leChars a c = true := by
  induction a generalizing b c with
  | nil => rfl
  | cons x xs ih =>
    cases b with
    | nil => simp [leChars] at h1
    | cons y ys =>
      cases c with
      | nil => simp [leChars] at h2
      | cons z zs =>
        simp only [leChars] at h1 h2 ⊢
        by_cases hxy : x.toNat < y.toNat
        · by_cases hyz : y.toNat < z.toNat
          · have hx : x.toNat < z.toNat := lt_trans hxy hyz
            simp [hx]
          · by_cases hzy : z.toNat < y.toNat
            · rw [if_neg hyz, if_pos hzy] at h2
              exact absurd h2 (by simp)
            · have hx : x.toNat < z.toNat := by omega
              simp [hx]
        · by_cases hyx : y.toNat < x.toNat
          · rw [if_neg hxy, if_pos hyx] at h1
            exact absurd h1 (by simp)
          · rw [if_neg hxy, if_neg hyx] at h1
            by_cases hyz : y.toNat < z.toNat
            · have hx : x.toNat < z.toNat := by omega
              simp [hx]
            · by_cases hzy : z.toNat < y.toNat
              · rw [if_neg hyz, if_pos hzy] at h2
                exact absurd h2 (by simp)
              · rw [if_neg hyz, if_neg hzy] at h2
                have hnl : ¬ x.toNat < z.toNat := by omega
                have hnr : ¬ z.toNat < x.toNat := by omega
                rw [if_neg hnl, if_neg hnr]
                exact ih h1 h2

theorem leChars_antisymm {a b : List Char} (h1 : leChars a b = true)
    (h2 : leChars b a = true) : a = b := by
  induction a generalizing b with
  | nil =>
    cases b with
    | nil => rfl
    | cons y ys => simp [leChars] at h2
  | cons x xs ih =>
    cases b with
    | nil => simp [leChars] at h1
    | cons y ys =>
      simp only [leChars] at h1 h2
      by_cases hxy : x.toNat < y.toNat
      · rw [if_neg (by omega), if_pos hxy] at h2
        exact absurd h2 (by simp)
      · by_cases hyx : y.toNat < x.toNat
        · rw [if_neg hxy, if_pos hyx] at h1
          exact absurd h1 (by simp)
        · rw [if_neg hxy, if_neg hyx] at h1
          rw [if_neg hyx, if_neg hxy] at h2
          have hc : x = y := char_toNat_inj (by omega)
          rw [hc, ih h1 h2]

theorem leStr_total (a b : String) : leStr a b = true ∨ leStr b a = true :=
  leChars_total a.data b.data

theorem leStr_trans {a b c : String} (h1 : leStr a b = true)
    (h2 : leStr b c = true) : leStr a c = true :=
  leChars_trans h1 h2

theorem leStr_antisymm {a b : String} (h1 : leStr a b = true)
    (h2 : leStr b a = true) : a = b :=
  string_data_inj (leChars_antisymm h1 h2)

theorem gitHash_inj {p₁ p₂ : String} (h : gitHash p₁ = gitHash p₂) :
    p₁ = p₂ := by
  have hd : encChars p₁.data = encChars p₂.data := congrArg String.data h
  exact string_data_inj (encChars_inj hd)

theorem encChars_no_space (l : List Char) :
    ∀ c ∈ encChars l, isGoSpace c = false := by
  induction l with
  | nil => intro c hc; simp [encChars] at hc
  | cons x rest ih =>
    intro c hc
    show isGoSpace c = false
    rcases List.mem_append.1 hc with hl | hr
    · unfold encChar at hl
      rcases List.mem_append.1 hl with ha | hb
      · have := List.eq_of_mem_replicate ha
        subst this
        decide
      · simp at hb
        subst hb
        decide
    · exact ih c hr

/-! ### Data model -/

/-- A ref as stored by git: a named pointer to a content hash
(one line of git show-ref output). -/
structure BackRef where
  name : String
  hash : String
deriving DecidableEq

/-- The state of a git repository: stored objects (content-addressed
payloads), refs, and the filesystem modification time (Unix seconds) of
each ref storage path under .git, when that path is statable.
Modelled from the spec: this is the backing store that the invoked git
processes manipulate. -/
structure GitState where
  objects : List String
  refs : List BackRef
  mtimes : List (String × Int)
deriving DecidableEq

/-- The Go-side ref record of src/git.go: name, hash and the os.FileInfo
returned by os.Stat, reduced to its ModTime().Unix() value; a nil
os.FileInfo is Option.none. -/
structure Ref where
  name : String
  hash : String
  stat : Option Int
deriving DecidableEq

/-- ModTime().Unix() of the stat carried by a ref (0 for a nil stat; the
source panics before this value is ever used on a nil stat). -/
def statTime (r : Ref) : Int := r.stat.getD 0

/-! ### The refs comparator (refs.Less in src/git.go) -/

/-- Outcome of one call to refs.Less: either a Bool, or a runtime panic. -/
inductive LessResult where
  | panicked (msg : String)
  | ok (b : Bool)
deriving DecidableEq

/-- refs.Less from src/git.go: panics when either stat is nil, otherwise
compares the two ModTime().Unix() values with <. -/
def refsLess (a b : Ref) : LessResult :=
  match a.stat with
  | none => .panicked ("ref " ++ a.hash ++ " stat is nil")
  | some ta =>
    match b.stat with
    | none => .panicked ("ref " ++ b.hash ++ " stat is nil")
    | some tb => .ok (decide (ta < tb))

/-- The Bool the sort sees: true exactly when refs.Less returns true. -/
def lessB (a b : Ref) : Bool :=
  match refsLess a b with
  | .ok true => true
  | _ => false

/-- The non-strict ordering a sort derives from a Less comparator:
a may precede b exactly when Less(b, a) does not hold. -/
def viewLE (a b : Ref) : Bool := !(lessB b a)

/-! ### A stable insertion sort over a Bool comparator -/

/-- Insertion step of a stable insertion sort. -/
def insertBy {α : Type} (le : α → α → Bool) (x : α) : List α → List α
  | [] => [x]
  | y :: ys => if le x y then x :: y :: ys else y :: insertBy le x ys

/-- Stable insertion sort. -/
def sortBy {α : Type} (le : α → α → Bool) : List α → List α
  | [] => []
  | x :: xs => insertBy le x (sortBy le xs)

/-- Modelled from the spec: the Ordered Ref View sorts the listed refs
with the registry comparator refs.Less; the sort invocation itself is
outside src/ and the spec requires it to be stable. -/
def orderedRefView (rs : List Ref) : List Ref := sortBy viewLE rs

/-! ### The git backend and the operations of src/git.go -/

/-- Does a ref with the given name exist in the repository. -/
def refExists (st : GitState) (n : String) : Bool :=
  st.refs.any (fun r => r.name == n)

/-- Modelled from the spec: git show-ref enumerates all refs of the
repository, one hash-name line per ref, in name order; it exits non-zero
when the repository has no refs at all. -/
def showRefLines (st : GitState) : List (String × String) :=
  (sortBy (fun a b : BackRef => leStr a.name b.name) st.refs).map
    (fun r => (r.hash, r.name))

/-- os.Stat of .git/<name>, reduced to ModTime().Unix(): Option.none when
the path cannot be statted. -/
def lookupMtime (mt : List (String × Int)) (n : String) : Option Int :=
  (mt.find? (fun p => p.1 == n)).map (fun p => p.2)

/-- Exit status and combined output of an invoked git process. -/
structure CmdResult where
  exitOk : Bool
  output : String
deriving DecidableEq

/-- The result translation of updateRef in src/git.go: non-zero exit
becomes an error carrying the trimmed combined output. -/
def updateRefGo (res : CmdResult) : Except String Unit :=
  if res.exitOk then .ok ()
  else .error ("error executing git update-ref\n" ++ trimSpaceStr res.output)

/-- Modelled from the spec: git update-ref name pointer atomically
creates or repoints the ref; its storage path gets the current time
(now) as modification time. -/
def gitUpdateRefSet (st : GitState) (n ptr : String) (now : Int) :
    GitState × CmdResult :=
  ({ st with
      refs := st.refs.filter (fun r => !(r.name == n)) ++ [⟨n, ptr⟩],
      mtimes := st.mtimes.filter (fun p => !(p.1 == n)) ++ [(n, now)] },
   ⟨true, ""⟩)

/-- updateRef from src/git.go. -/
def updateRef (st : GitState) (refName pointer : String) (now : Int) :
    GitState × Except String Unit :=
  let p := gitUpdateRefSet st refName pointer now
  (p.1, updateRefGo p.2)

/-- The result translation of removeRef in src/git.go. -/
def removeRefGo (res : CmdResult) : Except String Unit :=
  if res.exitOk then .ok ()
  else .error ("error executing git update-ref -d\n" ++ trimSpaceStr res.output)

/-- Modelled from the spec: git update-ref -d deletes the ref atomically
and fails exactly when no ref of that name exists. -/
def gitUpdateRefDelete (st : GitState) (n : String) : GitState × CmdResult :=
  if refExists st n then
    ({ st with
        refs := st.refs.filter (fun r => !(r.name == n)),
        mtimes := st.mtimes.filter (fun p => !(p.1 == n)) },
     ⟨true, ""⟩)
  else
    (st, ⟨false, "error: cannot lock ref \x27" ++ n ++
      "\x27: unable to resolve reference \x27" ++ n ++ "\x27"⟩)

/-- removeRef from src/git.go. -/
def removeRef (st : GitState) (refName : String) : GitState × Except String Unit :=
  let p := gitUpdateRefDelete st refName
  (p.1, removeRefGo p.2)

/-- Modelled from the spec: git hash-object -w --stdin stores the payload
(content-addressed, deduplicated) and prints its hash followed by a
newline. -/
def gitHashObjectW (st : GitState) (data : String) : GitState × String :=
  ({ st with objects := if st.objects.contains data then st.objects
                        else st.objects ++ [data] },
   String.mk (encChars data.data ++ ['\n']))

/-- Environmental outcome of each pipe stage of writeObject in
src/git.go, in the order the source reaches them: StdinPipe, StdoutPipe,
Start, stdin.Write, stdin.Close, ReadAll, Wait; true means that stage
fails when reached. -/
structure WritePipeEnv where
  stdinPipeFails : Bool
  stdoutPipeFails : Bool
  startFails : Bool
  writeFails : Bool
  closeFails : Bool
  readFails : Bool
  waitFails : Bool
deriving DecidableEq

/-- The environment in which every pipe stage succeeds. -/
def writeOk : WritePipeEnv := ⟨false, false, false, false, false, false, false⟩

/-- The seven failure messages of writeObject in src/git.go, one per
pipe stage; none embeds any output of the git process. -/
def writeObjectErrMsgs : List String :=
  ["can\x27t get stdin for git hash-object",
   "can\x27t get stdout for git hash-object",
   "can\x27t run git hash-object",
   "can\x27t write data to git hash-object",
   "can\x27t close git hash-object stdin",
   "can\x27t read git hash-object result",
   "can\x27t wait for git hash-object"]

/-- writeObject from src/git.go: acquire the stdin and stdout pipes,
start git hash-object -w --stdin, write the payload, close stdin, read
the stdout, wait; the first failing stage returns an error built from
its fixed stage message alone (no process output is captured), and the
success path returns the stdout trimmed of whitespace.  The repository
state left behind by an interrupted process is environmental; no claim
depends on it, and the model leaves it unchanged. -/
def writeObject (st : GitState) (data : String) (env : WritePipeEnv) :
    GitState × Except String String :=
  if env.stdinPipeFails then
    (st, .error "can\x27t get stdin for git hash-object")
  else if env.stdoutPipeFails then
    (st, .error "can\x27t get stdout for git hash-object")
  else if env.startFails then
    (st, .error "can\x27t run git hash-object")
  else if env.writeFails then
    (st, .error "can\x27t write data to git hash-object")
  else if env.closeFails then
    (st, .error "can\x27t close git hash-object stdin")
  else if env.readFails then
    (st, .error "can\x27t read git hash-object result")
  else if env.waitFails then
    (st, .error "can\x27t wait for git hash-object")
  else
    let p := gitHashObjectW st data
    (p.1, .ok (trimSpaceStr p.2))

/-- The result translation of catFile in src/git.go: the raw combined
output on success, an error carrying the trimmed output on failure. -/
def catFileGo (res : CmdResult) : Except String String :=
  if res.exitOk then .ok res.output
  else .error ("error executing git cat-file\n" ++ trimSpaceStr res.output)

/-- Modelled from the spec: git cat-file -p prints the exact payload of
the blob with the given content hash, and fails when no such object
exists. -/
def gitCatFile (st : GitState) (h : String) : CmdResult :=
  match st.objects.find? (fun o => gitHash o == h) with
  | some o => ⟨true, o⟩
  | none => ⟨false, "fatal: Not a valid object name " ++ h⟩

/-- catFile from src/git.go. -/
def catFile (st : GitState) (hash : String) : Except String String :=
  catFileGo (gitCatFile st hash)

/-- The error wrapping of a git show-ref failure in listRefs. -/
def showRefErr (out : String) : String :=
  "error executing git show-ref\n" ++ trimSpaceStr out

/-- The scanner loop of listRefs in src/git.go: for each hash-name line,
skip names without the namespace prefix, stat the matching ref storage
path, fail on a stat error, and collect name, hash and stat. -/
def collectRefs (mt : List (String × Int)) (ns : String) :
    List (String × String) → Except String (List Ref)
  | [] => .ok []
  | (hash, name) :: rest =>
    if !(hasPrefixGo name ns) then collectRefs mt ns rest
    else
      match lookupMtime mt name with
      | none => .error ("can\x27t stat() ref: " ++ name)
      | some t =>
        match collectRefs mt ns rest with
        | .error e => .error e
        | .ok l => .ok (⟨name, hash, some t⟩ :: l)

/-- listRefs from src/git.go: run git show-ref (which fails when the
repository has no refs, with empty output), then scan its lines. -/
def listRefs (st : GitState) (ns : String) : Except String (List Ref) :=
  if st.refs.isEmpty then .error (showRefErr "")
  else collectRefs st.mtimes ns (showRefLines st)

/-- The argument vector of the git clone command built by clone in
src/git.go: shallow (--depth=1), bare (--bare), no checkout (-n). -/
def cloneCommand (path remote : String) : List String :=
  ["git", "-C", path, "clone", "--depth=1", "--bare", "-n", remote, path]

/-- The result translation of clone in src/git.go: the process streams
to the parent stdout and stderr; the error carries only remote and
path. -/
def cloneGo (path remote : String) (res : CmdResult) : Except String Unit :=
  if res.exitOk then .ok ()
  else .error ("can\x27t run git clone \x27" ++ remote ++ "\x27 -> \x27" ++
    path ++ "\x27")

/-- The result translation of fetch in src/git.go: the process streams
to the parent stdout and stderr; the error carries only remote and
ref. -/
def fetchGo (remote r : String) (res : CmdResult) : Except String Unit :=
  if res.exitOk then .ok ()
  else .error ("can\x27t run git fetch \x27" ++ remote ++ "\x27 \x27" ++
    r ++ "\x27")

/-- The argument vector of the git push command built by push in
src/git.go: the prune flag appends --prune. -/
def pushCommand (path remote r : String) (prune : Bool) : List String :=
  ["git", "-C", path, "push", remote, r] ++ (if prune then ["--prune"] else [])

/-- The result translation of push in src/git.go: the process streams to
the parent stdout and stderr; the error carries only remote and ref. -/
def pushGo (remote r : String) (res : CmdResult) : Except String Unit :=
  if res.exitOk then .ok ()
  else .error ("can\x27t run git push \x27" ++ remote ++ "\x27 \x27" ++
    r ++ "\x27")

/-- Modelled from the spec: the effect of git push on the remote refs;
matchRef is the refspec pattern as a predicate on ref names.  Matching
local refs are upserted on the remote; with prune, matching remote refs
that no longer exist locally are deleted; without prune they are left in
place.  Object transfer is not modelled (no claim concerns it). -/
def pushEffect (matchRef : String → Bool) (prune : Bool)
    (loc rem : GitState) : GitState :=
  let hasLoc := fun n => loc.refs.any (fun r => r.name == n)
  let kept := rem.refs.filter (fun r =>
    if matchRef r.name then (if prune then hasLoc r.name else true) else true)
  let replaced := kept.filter (fun r => !(matchRef r.name && hasLoc r.name))
  { rem with refs := replaced ++ loc.refs.filter (fun r => matchRef r.name) }

/-! ### Permutation and sortedness lemmas for the insertion sort -/

theorem insertBy_perm {α : Type} (le : α → α → Bool) (x : α) (l : List α) :
    List.Perm (insertBy le x l) (x :: l) := by
  induction l with
  | nil => exact List.Perm.refl _
  | cons y ys ih =>
    unfold insertBy
    cases h : le x y
    · simp only [Bool.false_eq_true, if_false]
      exact (ih.cons y).trans (List.Perm.swap x y ys)
    · simp only [if_true]
      exact List.Perm.refl _

theorem sortBy_perm {α : Type} (le : α → α → Bool) (l : List α) :
    List.Perm (sortBy le l) l := by
  induction l with
  | nil => exact List.Perm.refl _
  | cons x xs ih => exact (insertBy_perm le x (sortBy le xs)).trans (ih.cons x)

theorem statTime_some {r : Ref} {t : Int} (h : r.stat = some t) :
    statTime r = t := by
  simp [statTime, h]

theorem viewLE_some {a b : Ref} {ta tb : Int} (ha : a.stat = some ta)
    (hb : b.stat = some tb) : viewLE a b = decide (ta ≤ tb) := by
  unfold viewLE lessB refsLess
  rw [ha, hb]
  by_cases h : tb < ta
  · have h2 : ¬ ta ≤ tb := not_le.2 h
    simp [h, h2]
  · have h2 : ta ≤ tb := not_lt.1 h
    simp [h, h2]

/-- The key order the ordered view realizes: ascending modification
time, with ties in ascending name order. -/
def keyLE (a b : Ref) : Prop :=
  statTime a < statTime b ∨
    (statTime a = statTime b ∧ leStr a.name b.name = true)

theorem insertBy_keyLE {x : Ref} {L : List Ref}
    (hx : x.stat.isSome) (hL : ∀ r ∈ L, r.stat.isSome)
    (hp : L.Pairwise keyLE) (hn : ∀ y ∈ L, leStr x.name y.name = true) :
    (insertBy viewLE x L).Pairwise keyLE := by
  induction L with
  | nil => simp [insertBy]
  | cons y ys ih =>
    obtain ⟨tx, htx⟩ := Option.isSome_iff_exists.1 hx
    obtain ⟨ty, hty⟩ := Option.isSome_iff_exists.1 (hL y (by simp))
    obtain ⟨hpy, hpys⟩ := List.pairwise_cons.1 hp
    unfold insertBy
    rw [viewLE_some htx hty]
    by_cases h : tx ≤ ty
    · rw [if_pos (by simpa using h)]
      constructor
      · intro z hz
        rcases List.mem_cons.1 hz with rfl | hzys
        · rcases lt_or_eq_of_le h with hlt | heq
          · exact Or.inl (by rw [statTime_some htx, statTime_some hty]; exact hlt)
          · exact Or.inr ⟨by rw [statTime_some htx, statTime_some hty]; exact heq,
              hn z (by simp)⟩
        · rcases hpy z hzys with hlt | ⟨heq, _⟩
          · have : statTime x ≤ statTime y := by
              rw [statTime_some htx, statTime_some hty]; exact h
            rcases lt_or_eq_of_le (le_trans this (le_of_lt hlt)) with h2 | h2
            · exact Or.inl h2
            · exact Or.inr ⟨h2, hn z (List.mem_cons_of_mem y hzys)⟩
          · have : statTime x ≤ statTime z := by
              rw [statTime_some htx]
              rw [statTime_some hty] at heq
              rw [← heq]
              exact h
            rcases lt_or_eq_of_le this with h2 | h2
            · exact Or.inl h2
            · exact Or.inr ⟨h2, hn z (List.mem_cons_of_mem y hzys)⟩
      · exact hp
    · rw [if_neg (by simpa using h)]
      have hyx : ty < tx := not_le.1 h
      constructor
      · intro z hz
        rcases List.mem_cons.1 ((insertBy_perm viewLE x ys).mem_iff.1 hz) with rfl | hzys
        · exact Or.inl (by rw [statTime_some htx, statTime_some hty]; exact hyx)
        · exact hpy z hzys
      · exact ih (fun r hr => hL r (List.mem_cons_of_mem y hr)) hpys
          (fun r hr => hn r (List.mem_cons_of_mem y hr))

theorem orderedRefView_key {l : List Ref}
    (hsome : ∀ r ∈ l, r.stat.isSome)
    (hname : l.Pairwise (fun a b => leStr a.name b.name = true)) :
    (orderedRefView l).Pairwise keyLE := by
  unfold orderedRefView
  induction l with
  | nil => simp [sortBy]
  | cons x xs ih =>
    obtain ⟨hny, hnys⟩ := List.pairwise_cons.1 hname
    show (insertBy viewLE x (sortBy viewLE xs)).Pairwise keyLE
    apply insertBy_keyLE
    · exact hsome x (by simp)
    · intro r hr
      exact hsome r (List.mem_cons_of_mem x ((sortBy_perm viewLE xs).mem_iff.1 hr))
    · exact ih (fun r hr => hsome r (List.mem_cons_of_mem x hr)) hnys
    · intro y hy
      exact hny y ((sortBy_perm viewLE xs).mem_iff.1 hy)

/-- Name sortedness of the insertion sort used to model git show-ref. -/
theorem insertBy_nameLE (x : BackRef) (L : List BackRef)
    (hp : L.Pairwise (fun a b : BackRef => leStr a.name b.name = true)) :
    (insertBy (fun a b : BackRef => leStr a.name b.name) x L).Pairwise
      (fun a b : BackRef => leStr a.name b.name = true) := by
  induction L with
  | nil => simp [insertBy]
  | cons y ys ih =>
    obtain ⟨hpy, hpys⟩ := List.pairwise_cons.1 hp
    unfold insertBy
    by_cases h : leStr x.name y.name = true
    · rw [if_pos h]
      constructor
      · intro z hz
        rcases List.mem_cons.1 hz with rfl | hzys
        · exact h
        · exact leStr_trans h (hpy z hzys)
      · exact hp
    · rw [if_neg h]
      have hyx : leStr y.name x.name = true :=
        (leStr_total x.name y.name).resolve_left h
      constructor
      · intro z hz
        rcases List.mem_cons.1 ((insertBy_perm _ x ys).mem_iff.1 hz) with rfl | hzys
        · exact hyx
        · exact hpy z hzys
      · exact ih hpys

theorem sortBy_nameLE (L : List BackRef) :
    (sortBy (fun a b : BackRef => leStr a.name b.name) L).Pairwise
      (fun a b : BackRef => leStr a.name b.name = true) := by
  induction L with
  | nil => simp [sortBy]
  | cons x xs ih => exact insertBy_nameLE x _ ih

theorem showRefLines_sorted (st : GitState) :
    (showRefLines st).Pairwise (fun a b => leStr a.2 b.2 = true) := by
  unfold showRefLines
  exact (sortBy_nameLE st.refs).map _ (fun a b h => h)

/-! ### Lemmas about listRefs -/

/-- The listing the spec describes: every shown ref whose name starts
with the namespace prefix, annotated with the timestamp of its storage
path. -/
def specMatchingRefs (st : GitState) (ns : String) : List Ref :=
  (showRefLines st).filterMap (fun hn =>
    if hasPrefixGo hn.2 ns then some ⟨hn.2, hn.1, lookupMtime st.mtimes hn.2⟩
    else none)

theorem collectRefs_ok {mt : List (String × Int)} {ns : String}
    {L : List (String × String)} {l : List Ref}
    (h : collectRefs mt ns L = .ok l) :
    l = L.filterMap (fun hn =>
      if hasPrefixGo hn.2 ns then some ⟨hn.2, hn.1, lookupMtime mt hn.2⟩
      else none) ∧ ∀ r ∈ l, r.stat.isSome := by
  induction L generalizing l with
  | nil =>
    simp only [collectRefs] at h
    cases h
    simp
  | cons hn rest ih =>
    obtain ⟨hash, name⟩ := hn
    unfold collectRefs at h
    by_cases hpre : hasPrefixGo name ns = true
    · rw [hpre] at h
      simp only [Bool.not_true, Bool.false_eq_true, if_false] at h
      cases hlook : lookupMtime mt name with
      | none =>
        rw [hlook] at h
        simp at h
      | some t =>
        rw [hlook] at h
        cases hrec : collectRefs mt ns rest with
        | error e =>
          rw [hrec] at h
          simp at h
        | ok l' =>
          rw [hrec] at h
          obtain ⟨hchar, hsome⟩ := ih hrec
          have hl : l = ⟨name, hash, some t⟩ :: l' := by
            cases h
            rfl
          subst hl
          constructor
          · simp only [List.filterMap_cons, hpre, if_true, hlook]
            rw [hchar]
          · intro r hr
            rcases List.mem_cons.1 hr with rfl | hr2
            · rfl
            · exact hsome r hr2
    · have hpre2 : hasPrefixGo name ns = false := by
        cases hv : hasPrefixGo name ns
        · rfl
        · exact absurd hv hpre
      rw [hpre2] at h
      simp only [Bool.not_false, if_true] at h
      obtain ⟨hchar, hsome⟩ := ih h
      constructor
      · simp only [List.filterMap_cons, hpre2, Bool.false_eq_true, if_false]
        exact hchar
      · exact hsome

theorem listRefs_ok {st : GitState} {ns : String} {l : List Ref}
    (h : listRefs st ns = .ok l) :
    l = specMatchingRefs st ns ∧ ∀ r ∈ l, r.stat.isSome := by
  unfold listRefs at h
  by_cases he : st.refs.isEmpty = true
  · rw [if_pos he] at h
    simp at h
  · rw [if_neg he] at h
    exact collectRefs_ok h

theorem listRefs_ok_nameLE {st : GitState} {ns : String} {l : List Ref}
    (h : listRefs st ns = .ok l) :
    l.Pairwise (fun a b : Ref => leStr a.name b.name = true) := by
  obtain ⟨hchar, -⟩ := listRefs_ok h
  subst hchar
  unfold specMatchingRefs
  rw [List.pairwise_filterMap]
  apply (showRefLines_sorted st).imp
  intro a b hab
  intro r hr r' hr'
  by_cases ha : hasPrefixGo a.2 ns = true
  · by_cases hb : hasPrefixGo b.2 ns = true
    · simp only [ha, hb, if_true, Option.mem_def, Option.some.injEq] at hr hr'
      rw [← hr, ← hr']
      exact hab
    · simp only [hb] at hr'
      simp at hr'
  · simp only [ha] at hr
    simp at hr

theorem collectRefs_err {mt : List (String × Int)} {ns : String}
    {L : List (String × String)}
    (h : ∃ hn ∈ L, hasPrefixGo hn.2 ns = true ∧ lookupMtime mt hn.2 = none) :
    ∃ e, collectRefs mt ns L = .error e := by
  induction L with
  | nil => simp at h
  | cons hn rest ih =>
    obtain ⟨hash, name⟩ := hn
    obtain ⟨x, hxmem, hxpre, hxlook⟩ := h
    unfold collectRefs
    rcases List.mem_cons.1 hxmem with rfl | hxrest
    · rw [hxpre]
      simp only [Bool.not_true, Bool.false_eq_true, if_false]
      rw [hxlook]
      exact ⟨_, rfl⟩
    · by_cases hpre : hasPrefixGo name ns = true
      · rw [hpre]
        simp only [Bool.not_true, Bool.false_eq_true, if_false]
        cases hlook : lookupMtime mt name with
        | none => exact ⟨_, rfl⟩
        | some t =>
          obtain ⟨e, he⟩ := ih ⟨x, hxrest, hxpre, hxlook⟩
          rw [he]
          exact ⟨e, rfl⟩
      · have hpre2 : hasPrefixGo name ns = false := by
          cases hv : hasPrefixGo name ns
          · rfl
          · exact absurd hv hpre
        rw [hpre2]
        simp only [Bool.not_false, if_true]
        exact ih ⟨x, hxrest, hxpre, hxlook⟩

/-! ### Claim theorems -/

theorem mem_writeObject_objects (st : GitState) (P : String) :
    P ∈ (writeObject st P writeOk).1.objects := by
  show P ∈ (if st.objects.contains P then st.objects else st.objects ++ [P])
  by_cases h : st.objects.contains P = true
  · rw [if_pos h]
    simpa using h
  · rw [if_neg h]
    exact List.mem_append_right _ (by simp)

theorem find?_gitHash {l : List String} {P : String} (hmem : P ∈ l) :
    l.find? (fun o => gitHash o == gitHash P) = some P := by
  cases hf : l.find? (fun o => gitHash o == gitHash P) with
  | none =>
    have := List.find?_eq_none.1 hf P hmem
    simp at this
  | some o =>
    have hpred := List.find?_some hf
    have heq : gitHash o = gitHash P := by simpa using hpred
    have ho : o = P := gitHash_inj heq
    exact congrArg some ho

/-- C1: for every payload P, writing P to the object store (in the
environment where every pipe stage succeeds) returns the content hash
of P, and reading that hash back from the resulting store yields P:
read(write(P)) == P. -/
theorem c1_write_read_roundtrip (st : GitState) (P : String) :
    (writeObject st P writeOk).2 = .ok (gitHash P) ∧
    catFile (writeObject st P writeOk).1 (gitHash P) = .ok P := by
  have htrim : trimSpaceStr (String.mk (encChars P.data ++ ['\n'])) = gitHash P := by
    unfold trimSpaceStr gitHash
    have : trimSpaceChars (String.mk (encChars P.data ++ ['\n'])).data =
        encChars P.data :=
      trimSpaceChars_append_newline _ (encChars_no_space _)
    rw [this]
  constructor
  · show Except.ok (trimSpaceStr (gitHashObjectW st P).2) = Except.ok (gitHash P)
    rw [show (gitHashObjectW st P).2 = String.mk (encChars P.data ++ ['\n']) from rfl]
    rw [htrim]
  · unfold catFile gitCatFile
    rw [find?_gitHash (mem_writeObject_objects st P)]
    rfl

/-- C9: bootstrap builds its git clone command with history depth
limited to 1 (--depth=1), as a bare repository (--bare), and with no
working checkout materialized (-n). -/
theorem c9_clone_shallow_bare_nocheckout (path remote : String) :
    "--depth=1" ∈ cloneCommand path remote ∧
    "--bare" ∈ cloneCommand path remote ∧
    "-n" ∈ cloneCommand path remote := by
  refine ⟨?_, ?_, ?_⟩ <;> simp [cloneCommand]

/-- C3: a matching ref whose storage path cannot be statted makes
listRefs return an error value to its caller (a recoverable error, not a
process termination), and a successful listRefs never returns a ref
without a usable timestamp. -/
theorem c3_stat_failure_is_error (st : GitState) (ns : String) :
    ((∃ hn ∈ showRefLines st, hasPrefixGo hn.2 ns = true ∧
        lookupMtime st.mtimes hn.2 = none) →
      ∃ e, listRefs st ns = .error e) ∧
    (∀ l, listRefs st ns = .ok l → ∀ r ∈ l, r.stat.isSome) := by
  constructor
  · rintro ⟨hn, hmem, hpre, hlook⟩
    have hne : st.refs.isEmpty = false := by
      cases hv : st.refs.isEmpty
      · rfl
      · exfalso
        have hnil : st.refs = [] := by simpa using hv
        unfold showRefLines at hmem
        rw [hnil] at hmem
        simp [sortBy] at hmem
    unfold listRefs
    rw [hne]
    simp only [Bool.false_eq_true, if_false]
    exact collectRefs_err ⟨hn, hmem, hpre, hlook⟩
  · intro l hl
    exact (listRefs_ok hl).2

/-- C4: a successful listRefs returns exactly the shown refs whose name
starts with the namespace prefix (none outside it, none inside it
dropped), each annotated with the timestamp of its storage path. -/
theorem c4_listRefs_exact (st : GitState) (ns : String) (l : List Ref)
    (h : listRefs st ns = .ok l) :
    l = specMatchingRefs st ns ∧
    (∀ r ∈ l, hasPrefixGo r.name ns = true ∧
      r.stat = lookupMtime st.mtimes r.name) := by
  obtain ⟨hchar, hsome⟩ := listRefs_ok h
  refine ⟨hchar, ?_⟩
  intro r hr
  rw [hchar] at hr
  unfold specMatchingRefs at hr
  obtain ⟨hn, hmem, hf⟩ := List.mem_filterMap.1 hr
  by_cases hpre : hasPrefixGo hn.2 ns = true
  · rw [if_pos hpre] at hf
    cases hf
    exact ⟨hpre, rfl⟩
  · rw [if_neg hpre] at hf
    cases hf

/-- C10: the namespace filter of listRefs is raw string-prefix matching
with no path-separator boundary: every shown ref whose name merely
begins with the prefix is included, refs/q matches refs/queue/x, and the
empty prefix matches every name. -/
theorem c10_raw_string_filter (st : GitState) (ns : String) (l : List Ref)
    (h : listRefs st ns = .ok l) :
    (∀ hn ∈ showRefLines st, hasPrefixGo hn.2 ns = true →
      (⟨hn.2, hn.1, lookupMtime st.mtimes hn.2⟩ : Ref) ∈ l) ∧
    hasPrefixGo "refs/queue/x" "refs/q" = true ∧
    (∀ s : String, hasPrefixGo s "" = true) := by
  obtain ⟨hchar, -⟩ := listRefs_ok h
  refine ⟨?_, by decide, fun s => by simp [hasPrefixGo]⟩
  intro hn hmem hpre
  rw [hchar]
  unfold specMatchingRefs
  apply List.mem_filterMap.2
  exact ⟨hn, hmem, by rw [if_pos hpre]⟩

/-- C5: removeRef atomically deletes the ref and fails exactly when the
ref does not exist at call time (the NotFound condition), leaving the
state unchanged in that case. -/
theorem c5_removeRef (st : GitState) (n : String) :
    ((∃ e, (removeRef st n).2 = .error e) ↔ refExists st n = false) ∧
    (refExists st n = true →
      (removeRef st n).2 = .ok () ∧
      (removeRef st n).1.refs = st.refs.filter (fun r => !(r.name == n)) ∧
      (removeRef st n).1.objects = st.objects) ∧
    (refExists st n = false → (removeRef st n).1 = st) := by
  by_cases h : refExists st n = true
  · have hrm : removeRef st n =
        ({ st with
            refs := st.refs.filter (fun r => !(r.name == n)),
            mtimes := st.mtimes.filter (fun p => !(p.1 == n)) },
         .ok ()) := by
      unfold removeRef gitUpdateRefDelete removeRefGo
      rw [if_pos h]
      rfl
    rw [hrm]
    refine ⟨?_, fun _ => ⟨rfl, rfl, rfl⟩, fun hc => absurd h (by simp [hc])⟩
    constructor
    · rintro ⟨e, he⟩
      cases he
    · intro hc
      exact absurd h (by simp [hc])
  · have hfalse : refExists st n = false := by
      cases hv : refExists st n
      · rfl
      · exact absurd hv h
    have hrm : removeRef st n =
        (st, .error ("error executing git update-ref -d\n" ++
          trimSpaceStr ("error: cannot lock ref \x27" ++ n ++
            "\x27: unable to resolve reference \x27" ++ n ++ "\x27"))) := by
      unfold removeRef gitUpdateRefDelete removeRefGo
      rw [if_neg h]
      rfl
    rw [hrm]
    refine ⟨⟨fun _ => hfalse, fun _ => ⟨_, rfl⟩⟩, fun hc => ?_, fun _ => rfl⟩
    rw [hc] at hfalse
    cases hfalse

/-- C2: the ordered ref view (listRefs followed by sorting with the refs
comparator) lists refs created at strictly increasing timestamps in
exactly that creation order, oldest first. -/
theorem c2_ordered_view_fifo (st : GitState) (ns : String)
    (rs rs₀ : List Ref) (hls : listRefs st ns = .ok rs)
    (hperm : List.Perm rs rs₀)
    (hstrict : rs₀.Pairwise (fun a b => statTime a < statTime b)) :
    orderedRefView rs = rs₀ := by
  obtain ⟨-, hsome⟩ := listRefs_ok hls
  have hname := listRefs_ok_nameLE hls
  have hkey := orderedRefView_key hsome hname
  have hperm2 : List.Perm (orderedRefView rs) rs₀ :=
    (sortBy_perm viewLE rs).trans hperm
  have hne : rs₀.Pairwise (fun a b : Ref => statTime a ≠ statTime b) :=
    hstrict.imp (fun h => ne_of_lt h)
  have hne2 : (orderedRefView rs).Pairwise
      (fun a b : Ref => statTime a ≠ statTime b) :=
    (List.Perm.pairwise_iff (fun h => Ne.symm h) hperm2).2 hne
  have hle : (orderedRefView rs).Pairwise
      (fun a b : Ref => statTime a ≤ statTime b) :=
    hkey.imp (fun h => by
      rcases h with h | ⟨h, -⟩
      · exact le_of_lt h
      · exact le_of_eq h)
  have hlt : (orderedRefView rs).Pairwise
      (fun a b : Ref => statTime a < statTime b) :=
    (hle.and hne2).imp (fun h => lt_of_le_of_ne h.1 h.2)
  haveI : IsAntisymm Ref (fun a b : Ref => statTime a < statTime b) :=
    ⟨fun a b h1 h2 => absurd (lt_trans h1 h2) (lt_irrefl _)⟩
  exact List.eq_of_perm_of_sorted hperm2 hlt hstrict

/-- C7: two repositories holding the same set of refs (same names and
timestamps, in any storage order) produce the same listing, and the
ordered view orders refs by timestamp with ties in deterministic name
order, so repeated listings of the same set are reproducible. -/
theorem c7_deterministic_order (st₁ st₂ : GitState) (ns : String)
    (rs : List Ref)
    (hperm : List.Perm st₁.refs st₂.refs) (hmt : st₁.mtimes = st₂.mtimes)
    (hnd : (st₁.refs.map BackRef.name).Nodup) :
    listRefs st₁ ns = listRefs st₂ ns ∧
    (listRefs st₁ ns = .ok rs → (orderedRefView rs).Pairwise keyLE) := by
  constructor
  · have hs₁ := sortBy_nameLE st₁.refs
    have hs₂ := sortBy_nameLE st₂.refs
    have hperm2 :
        List.Perm (sortBy (fun a b : BackRef => leStr a.name b.name) st₁.refs)
          (sortBy (fun a b : BackRef => leStr a.name b.name) st₂.refs) :=
      ((sortBy_perm _ st₁.refs).trans hperm).trans (sortBy_perm _ st₂.refs).symm
    have hne₁ : st₁.refs.Pairwise (fun a b : BackRef => a.name ≠ b.name) :=
      List.pairwise_map.1 hnd
    have hne_s₁ :
        (sortBy (fun a b : BackRef => leStr a.name b.name) st₁.refs).Pairwise
          (fun a b : BackRef => a.name ≠ b.name) :=
      (List.Perm.pairwise_iff (fun h => Ne.symm h) (sortBy_perm _ st₁.refs)).2 hne₁
    have hne_s₂ :
        (sortBy (fun a b : BackRef => leStr a.name b.name) st₂.refs).Pairwise
          (fun a b : BackRef => a.name ≠ b.name) :=
      (List.Perm.pairwise_iff (fun h => Ne.symm h) hperm2).1 hne_s₁
    have hlt₁ := (hs₁.and hne_s₁).imp
      (fun h => (⟨h.1, h.2⟩ :
        (fun a b : BackRef => leStr a.name b.name = true ∧ a.name ≠ b.name) _ _))
    have hlt₂ := (hs₂.and hne_s₂).imp
      (fun h => (⟨h.1, h.2⟩ :
        (fun a b : BackRef => leStr a.name b.name = true ∧ a.name ≠ b.name) _ _))
    haveI : IsAntisymm BackRef
        (fun a b : BackRef => leStr a.name b.name = true ∧ a.name ≠ b.name) :=
      ⟨fun a b h1 h2 => absurd (leStr_antisymm h1.1 h2.1) h1.2⟩
    have hsorteq := List.eq_of_perm_of_sorted hperm2 hlt₁ hlt₂
    have hshow : showRefLines st₁ = showRefLines st₂ := by
      unfold showRefLines
      rw [hsorteq]
    have hemp : st₁.refs.isEmpty = st₂.refs.isEmpty := by
      have hlen := hperm.length_eq
      cases e1 : st₁.refs with
      | nil =>
        cases e2 : st₂.refs with
        | nil => rfl
        | cons b m =>
          rw [e1, e2] at hlen
          simp at hlen
      | cons a l =>
        cases e2 : st₂.refs with
        | nil =>
          rw [e1, e2] at hlen
          simp at hlen
        | cons b m => rfl
    unfold listRefs
    rw [hemp, hmt, hshow]
  · intro hok
    obtain ⟨-, hsome⟩ := listRefs_ok hok
    exact orderedRefView_key hsome (listRefs_ok_nameLE hok)

/-- C6: after removeRef succeeds locally, a push of a matching pattern
with prune makes the ref absent from the remote matching set, while a
push without prune leaves it present remotely although absent locally. -/
theorem c6_prune_propagation (loc rem loc' : GitState) (n : String)
    (m : String → Bool)
    (hrm : removeRef loc n = (loc', .ok ())) (hmn : m n = true) :
    (∀ r ∈ loc'.refs, r.name ≠ n) ∧
    (∀ r ∈ (pushEffect m true loc' rem).refs, r.name ≠ n) ∧
    ((∃ r ∈ rem.refs, r.name = n) →
      ∃ r ∈ (pushEffect m false loc' rem).refs, r.name = n) := by
  have hloc : ∀ r ∈ loc'.refs, r.name ≠ n := by
    by_cases h : refExists loc n = true
    · have hrm2 : removeRef loc n =
          ({ loc with
              refs := loc.refs.filter (fun r => !(r.name == n)),
              mtimes := loc.mtimes.filter (fun p => !(p.1 == n)) },
           .ok ()) := by
        unfold removeRef gitUpdateRefDelete removeRefGo
        rw [if_pos h]
        rfl
      rw [hrm2] at hrm
      have hfst : ({ loc with
          refs := loc.refs.filter (fun r => !(r.name == n)),
          mtimes := loc.mtimes.filter (fun p => !(p.1 == n)) } : GitState)
          = loc' := congrArg Prod.fst hrm
      intro x hx
      have hx2 : x ∈ loc.refs.filter (fun r => !(r.name == n)) := by
        rw [← hfst] at hx
        exact hx
      have hmem := List.mem_filter.1 hx2
      intro heq
      rw [heq] at hmem
      simp at hmem
    · exfalso
      have hrm2 : (removeRef loc n).2 =
          .error ("error executing git update-ref -d\n" ++
            trimSpaceStr ("error: cannot lock ref \x27" ++ n ++
              "\x27: unable to resolve reference \x27" ++ n ++ "\x27")) := by
        unfold removeRef gitUpdateRefDelete removeRefGo
        rw [if_neg h]
        rfl
      rw [hrm] at hrm2
      cases hrm2
  have hnoloc : (loc'.refs.any (fun r => r.name == n)) = false := by
    cases hv : loc'.refs.any (fun r => r.name == n)
    · rfl
    · exfalso
      obtain ⟨x, hx, hxe⟩ := List.any_eq_true.1 hv
      exact hloc x hx (by simpa using hxe)
  refine ⟨hloc, ?_, ?_⟩
  · intro x hx
    dsimp only [pushEffect] at hx
    rcases List.mem_append.1 hx with hk | hp
    · have hk1 := List.mem_filter.1 hk
      have hk2 := List.mem_filter.1 hk1.1
      intro heq
      have hpred := hk2.2
      rw [heq, hmn] at hpred
      simp only [if_true] at hpred
      rw [hnoloc] at hpred
      cases hpred
    · exact hloc x (List.mem_filter.1 hp).1
  · rintro ⟨r₀, hr₀, hname⟩
    refine ⟨r₀, ?_, hname⟩
    dsimp only [pushEffect]
    apply List.mem_append_left
    apply List.mem_filter.2
    refine ⟨List.mem_filter.2 ⟨hr₀, ?_⟩, ?_⟩
    · by_cases hm : m r₀.name = true
      · simp [hm]
      · simp [hm]
    · rw [hname, hmn, hnoloc]
      rfl

theorem isPrefixOf_self_chars (l : List Char) : l.isPrefixOf l = true := by
  induction l with
  | nil => rfl
  | cons c rest ih =>
    show (c == c && rest.isPrefixOf rest) = true
    simp [ih]

theorem infixChars_suffix (a b : List Char) : infixChars b (a ++ b) = true := by
  induction a with
  | nil =>
    rw [List.nil_append]
    cases b with
    | nil => rfl
    | cons c r =>
      unfold infixChars
      rw [isPrefixOf_self_chars]
      rfl
  | cons c r ih =>
    rw [List.cons_append]
    unfold infixChars
    rw [ih]
    simp

theorem string_append_data (a b : String) : (a ++ b).data = a.data ++ b.data := by
  cases a
  cases b
  rfl

theorem containsStr_suffix (a b : String) : containsStr (a ++ b) b = true := by
  unfold containsStr
  rw [string_append_data]
  exact infixChars_suffix a.data b.data

/-- C8 as stated is false: the push failure path reports an error that
does not carry the captured output of the invoked git process. -/
theorem c8_push_error_lacks_output :
    pushGo "origin" "refs/q/a" ⟨false, "XYZ"⟩ =
      .error ("can\x27t run git push \x27origin\x27 \x27refs/q/a\x27") ∧
    containsStr "can\x27t run git push \x27origin\x27 \x27refs/q/a\x27" "XYZ"
      = false := by
  constructor
  · rfl
  · decide

/-- C8 amended: operations that capture combined output (updateRef,
removeRef, the show-ref stage of listRefs, catFile) fail with structured
errors embedding the trimmed captured output; clone, fetch and push
stream their output to the parent process and fail with errors carrying
only the command context, independent of that output; and a failing
pipe stage of writeObject produces one of its seven fixed stage
messages, independent of the payload and of the repository state, so it
carries no captured output either. -/
theorem c8_error_reporting (res res₂ : CmdResult) (path remote r : String)
    (stA stB : GitState) (dataA dataB : String) (env : WritePipeEnv)
    (h1 : res.exitOk = false) (h2 : res₂.exitOk = false)
    (henv : env ≠ writeOk) :
    (∃ msg, updateRefGo res = .error msg ∧
      containsStr msg (trimSpaceStr res.output) = true) ∧
    (∃ msg, removeRefGo res = .error msg ∧
      containsStr msg (trimSpaceStr res.output) = true) ∧
    (∃ msg, catFileGo res = .error msg ∧
      containsStr msg (trimSpaceStr res.output) = true) ∧
    containsStr (showRefErr res.output) (trimSpaceStr res.output) = true ∧
    cloneGo path remote res = cloneGo path remote res₂ ∧
    fetchGo remote r res = fetchGo remote r res₂ ∧
    pushGo remote r res = pushGo remote r res₂ ∧
    (∃ msg, msg ∈ writeObjectErrMsgs ∧
      (writeObject stA dataA env).2 = .error msg ∧
      (writeObject stB dataB env).2 = .error msg) := by
  have hres : ¬ res.exitOk = true := by
    rw [h1]
    simp
  have hres₂ : ¬ res₂.exitOk = true := by
    rw [h2]
    simp
  refine ⟨⟨"error executing git update-ref\n" ++ trimSpaceStr res.output, ?_, ?_⟩,
    ⟨"error executing git update-ref -d\n" ++ trimSpaceStr res.output, ?_, ?_⟩,
    ⟨"error executing git cat-file\n" ++ trimSpaceStr res.output, ?_, ?_⟩,
    ?_, ?_, ?_, ?_, ?_⟩
  · unfold updateRefGo
    rw [if_neg hres]
  · exact containsStr_suffix _ _
  · unfold removeRefGo
    rw [if_neg hres]
  · exact containsStr_suffix _ _
  · unfold catFileGo
    rw [if_neg hres]
  · exact containsStr_suffix _ _
  · unfold showRefErr
    exact containsStr_suffix _ _
  · unfold cloneGo
    rw [if_neg hres, if_neg hres₂]
  · unfold fetchGo
    rw [if_neg hres, if_neg hres₂]
  · unfold pushGo
    rw [if_neg hres, if_neg hres₂]
  · obtain ⟨b1, b2, b3, b4, b5, b6, b7⟩ := env
    cases b1 with
    | true =>
      exact ⟨"can\x27t get stdin for git hash-object", by decide, rfl, rfl⟩
    | false =>
      cases b2 with
      | true =>
        exact ⟨"can\x27t get stdout for git hash-object", by decide, rfl, rfl⟩
      | false =>
        cases b3 with
        | true =>
          exact ⟨"can\x27t run git hash-object", by decide, rfl, rfl⟩
        | false =>
          cases b4 with
          | true =>
            exact ⟨"can\x27t write data to git hash-object", by decide, rfl, rfl⟩
          | false =>
            cases b5 with
            | true =>
              exact ⟨"can\x27t close git hash-object stdin", by decide, rfl, rfl⟩
            | false =>
              cases b6 with
              | true =>
                exact ⟨"can\x27t read git hash-object result", by decide, rfl, rfl⟩
              | false =>
                cases b7 with
                | true =>
                  exact ⟨"can\x27t wait for git hash-object", by decide, rfl, rfl⟩
                | false => exact absurd rfl henv

/-! ### Concrete instantiations -/

/-- A small repository used to instantiate the claim theorems: two refs
under refs/q created at Unix times 1 and 2, stored in reverse name
order. -/
def sampleState : GitState :=
  ⟨[], [⟨"refs/q/b", "h2"⟩, ⟨"refs/q/a", "h1"⟩], [("refs/q/a", 1), ("refs/q/b", 2)]⟩

/-- The listing of sampleState under the refs/q namespace. -/
def sampleListing : List Ref :=
  [⟨"refs/q/a", "h1", some 1⟩, ⟨"refs/q/b", "h2", some 2⟩]

theorem c2_ordered_view_fifo_witness :
    orderedRefView sampleListing = sampleListing :=
  c2_ordered_view_fifo sampleState "refs/q/" sampleListing sampleListing
    rfl (by decide) (by decide)

theorem c3_stat_failure_is_error_witness :
    ∃ e, listRefs ⟨[], [⟨"refs/q/a", "h1"⟩], []⟩ "refs/q/" = .error e :=
  (c3_stat_failure_is_error ⟨[], [⟨"refs/q/a", "h1"⟩], []⟩ "refs/q/").1 (by decide)

theorem c4_listRefs_exact_witness :
    sampleListing = specMatchingRefs sampleState "refs/q/" ∧
    (∀ r ∈ sampleListing, hasPrefixGo r.name "refs/q/" = true ∧
      r.stat = lookupMtime sampleState.mtimes r.name) :=
  c4_listRefs_exact sampleState "refs/q/" sampleListing rfl

theorem c5_removeRef_witness :
    (removeRef ⟨[], [⟨"refs/q/a", "h1"⟩], [("refs/q/a", 1)]⟩ "refs/q/a").2
      = .ok () ∧
    (removeRef ⟨[], [⟨"refs/q/a", "h1"⟩], [("refs/q/a", 1)]⟩ "refs/q/a").1.refs
      = [(⟨"refs/q/a", "h1"⟩ : BackRef)].filter
          (fun r => !(r.name == "refs/q/a")) ∧
    (removeRef ⟨[], [⟨"refs/q/a", "h1"⟩], [("refs/q/a", 1)]⟩ "refs/q/a").1.objects
      = [] :=
  (c5_removeRef ⟨[], [⟨"refs/q/a", "h1"⟩], [("refs/q/a", 1)]⟩ "refs/q/a").2.1 rfl

theorem c6_prune_propagation_witness :
    (∀ r ∈ (⟨[], [], []⟩ : GitState).refs, r.name ≠ "refs/q/a") ∧
    (∀ r ∈ (pushEffect (fun s => hasPrefixGo s "refs/q/") true ⟨[], [], []⟩
        ⟨[], [⟨"refs/q/a", "h1"⟩], [("refs/q/a", 1)]⟩).refs,
      r.name ≠ "refs/q/a") ∧
    ((∃ r ∈ (⟨[], [⟨"refs/q/a", "h1"⟩], [("refs/q/a", 1)]⟩ : GitState).refs,
        r.name = "refs/q/a") →
      ∃ r ∈ (pushEffect (fun s => hasPrefixGo s "refs/q/") false ⟨[], [], []⟩
        ⟨[], [⟨"refs/q/a", "h1"⟩], [("refs/q/a", 1)]⟩).refs,
        r.name = "refs/q/a") :=
  c6_prune_propagation ⟨[], [⟨"refs/q/a", "h1"⟩], [("refs/q/a", 1)]⟩
    ⟨[], [⟨"refs/q/a", "h1"⟩], [("refs/q/a", 1)]⟩ ⟨[], [], []⟩ "refs/q/a"
    (fun s => hasPrefixGo s "refs/q/") rfl rfl

/-- A repository with a timestamp tie between the two refs. -/
def tieState₁ : GitState :=
  ⟨[], [⟨"refs/q/b", "hb"⟩, ⟨"refs/q/a", "ha"⟩],
    [("refs/q/a", 5), ("refs/q/b", 5)]⟩

/-- The same set of refs as tieState₁, stored in the other order. -/
def tieState₂ : GitState :=
  ⟨[], [⟨"refs/q/a", "ha"⟩, ⟨"refs/q/b", "hb"⟩],
    [("refs/q/a", 5), ("refs/q/b", 5)]⟩

/-- The listing both tie states produce. -/
def tieListing : List Ref :=
  [⟨"refs/q/a", "ha", some 5⟩, ⟨"refs/q/b", "hb", some 5⟩]

theorem c7_deterministic_order_witness :
    listRefs tieState₁ "refs/q/" = listRefs tieState₂ "refs/q/" ∧
    (listRefs tieState₁ "refs/q/" = .ok tieListing →
      (orderedRefView tieListing).Pairwise keyLE) :=
  c7_deterministic_order tieState₁ tieState₂ "refs/q/" tieListing
    (by decide) rfl (by decide)

theorem c8_error_reporting_witness :
    (∃ msg, updateRefGo ⟨false, " boom "⟩ = .error msg ∧
      containsStr msg (trimSpaceStr " boom ") = true) ∧
    (∃ msg, removeRefGo ⟨false, " boom "⟩ = .error msg ∧
      containsStr msg (trimSpaceStr " boom ") = true) ∧
    (∃ msg, catFileGo ⟨false, " boom "⟩ = .error msg ∧
      containsStr msg (trimSpaceStr " boom ") = true) ∧
    containsStr (showRefErr " boom ") (trimSpaceStr " boom ") = true ∧
    cloneGo "/repo" "origin" ⟨false, " boom "⟩ =
      cloneGo "/repo" "origin" ⟨false, "other"⟩ ∧
    fetchGo "origin" "refs/q/a" ⟨false, " boom "⟩ =
      fetchGo "origin" "refs/q/a" ⟨false, "other"⟩ ∧
    pushGo "origin" "refs/q/a" ⟨false, " boom "⟩ =
      pushGo "origin" "refs/q/a" ⟨false, "other"⟩ ∧
    (∃ msg, msg ∈ writeObjectErrMsgs ∧
      (writeObject ⟨[], [], []⟩ "task-1"
        ⟨true, false, false, false, false, false, false⟩).2 = .error msg ∧
      (writeObject ⟨["x"], [⟨"refs/q/a", "h1"⟩], [("refs/q/a", 1)]⟩ "task-2"
        ⟨true, false, false, false, false, false, false⟩).2 = .error msg) :=
  c8_error_reporting ⟨false, " boom "⟩ ⟨false, "other"⟩ "/repo" "origin"
    "refs/q/a" ⟨[], [], []⟩ ⟨["x"], [⟨"refs/q/a", "h1"⟩], [("refs/q/a", 1)]⟩
    "task-1" "task-2" ⟨true, false, false, false, false, false, false⟩
    rfl rfl (by decide)

theorem c10_raw_string_filter_witness :
    (∀ hn ∈ showRefLines sampleState, hasPrefixGo hn.2 "refs/q" = true →
      (⟨hn.2, hn.1, lookupMtime sampleState.mtimes hn.2⟩ : Ref) ∈ sampleListing) ∧
    hasPrefixGo "refs/queue/x" "refs/q" = true ∧
    (∀ s : String, hasPrefixGo s "" = true) :=
  c10_raw_string_filter sampleState "refs/q" sampleListing rfl
